import Mathlib

/-!
Shallow embedding of `src/Q-learn.py`: a 6×7 Connect-Four environment
(`Connect4`, with `play` and `winner`) and a tabular Q-learning agent
(`QLearningAgent`, with `get_state`, `choose_action` and `update`).

Conventions of the embedding:
* a board cell is `Cell.E` (the Python string " "), `Cell.R` ("R") or
  `Cell.Y` ("Y");
* the 6×7 grid `board[row][col]` becomes a total function
  `Fin 6 → Fin 7 → Cell`, read and written through the guarded accessors
  `bget` / `bset` (the Python code only ever indexes in range);
* Python floats (`alpha`, `gamma`, Q-values, rewards) are modelled as
  rationals, and `float('-inf')` as the `none` case of an `Option ℚ`
  accumulator, which every finite value strictly exceeds;
* the two calls to `random` in `choose_action` are passed in explicitly:
  `randUniform : ℚ` stands for `random.random()` and `randCol : Nat` for
  `random.randint(0, 6)`;
* mutation of `env` is explicit state passing: `play` returns
  `Bool × Connect4`, `choose_action` returns `Option Nat × Connect4`
  (the Python `None` result is `Option.none`).
-/

namespace QLearn

/-- A board cell: empty, red or yellow (Python " ", "R", "Y"). -/
inductive Cell
  | E
  | R
  | Y
deriving DecidableEq, Repr

/-- The 6-row × 7-column grid of `Connect4.__init__`. -/
abbrev Board := Fin 6 → Fin 7 → Cell

/-- Guarded read `board[r][c]`; the source only indexes in range. -/
def bget (b : Board) (r c : Nat) : Cell :=
  if h : r < 6 ∧ c < 7 then b ⟨r, h.1⟩ ⟨c, h.2⟩ else Cell.E

/-- Guarded write `board[r][c] = v`; the source only indexes in range. -/
def bset (b : Board) (r c : Nat) (v : Cell) : Board :=
  fun i j => if i.val = r ∧ j.val = c then v else b i j

/-- Python `self.current_player = "Y" if self.current_player == "R" else "R"`. -/
def toggle (p : Cell) : Cell :=
  if p = Cell.R then Cell.Y else Cell.R

/-- The environment state: grid plus `current_player`. -/
structure Connect4 where
  board : Board
  current_player : Cell

instance : DecidableEq Connect4 := fun a b =>
  decidable_of_iff (a.board = b.board ∧ a.current_player = b.current_player)
    (by cases a; cases b; simp)

/-- Python `Connect4.__init__`: all cells " ", red starts. -/
def Connect4.init : Connect4 :=
  { board := fun _ _ => Cell.E, current_player := Cell.R }

/-- Loop body of `Connect4.play`: try each row of `rows` in order, place the
current player's mark at the first empty cell and toggle the player. -/
def playAux (env : Connect4) (col : Nat) : List Nat → Bool × Connect4
  | [] => (false, env)
  | r :: rs =>
      if bget env.board r col = Cell.E then
        (true, { board := bset env.board r col env.current_player,
                 current_player := toggle env.current_player })
      else
        playAux env col rs

/-- Python `Connect4.play(col)`: `for row in range(5, 0, -1)` visits rows
5, 4, 3, 2, 1 (row 0 is never visited); returns `False` with no state
change when no visited cell is empty. -/
def play (env : Connect4) (col : Nat) : Bool × Connect4 :=
  playAux env col [5, 4, 3, 2, 1]

/-- The row scan of `Connect4.winner`: rows 0..5, start columns 0..3,
first chained-equal non-empty quadruple wins. -/
def rowCheck (b : Board) : Option Cell :=
  (List.range 6).findSome? fun row =>
    (List.range 4).findSome? fun col =>
      if bget b row col = bget b row (col + 1) ∧
         bget b row (col + 1) = bget b row (col + 2) ∧
         bget b row (col + 2) = bget b row (col + 3) ∧
         bget b row (col + 3) ≠ Cell.E then
        some (bget b row col)
      else
        none

/-- The column scan of `Connect4.winner`: columns 0..6, start rows 0..2. -/
def colCheck (b : Board) : Option Cell :=
  (List.range 7).findSome? fun col =>
    (List.range 3).findSome? fun row =>
      if bget b row col = bget b (row + 1) col ∧
         bget b (row + 1) col = bget b (row + 2) col ∧
         bget b (row + 2) col = bget b (row + 3) col ∧
         bget b (row + 3) col ≠ Cell.E then
        some (bget b row col)
      else
        none

/-- The diagonal scan of `Connect4.winner`: start rows 0..2, start columns
0..3; at each position the down-right diagonal is checked before the
down-left (anti) diagonal. -/
def diagCheck (b : Board) : Option Cell :=
  (List.range 3).findSome? fun row =>
    (List.range 4).findSome? fun col =>
      if bget b row col = bget b (row + 1) (col + 1) ∧
         bget b (row + 1) (col + 1) = bget b (row + 2) (col + 2) ∧
         bget b (row + 2) (col + 2) = bget b (row + 3) (col + 3) ∧
         bget b (row + 3) (col + 3) ≠ Cell.E then
        some (bget b row col)
      else if bget b row (col + 3) = bget b (row + 1) (col + 2) ∧
              bget b (row + 1) (col + 2) = bget b (row + 2) (col + 1) ∧
              bget b (row + 2) (col + 1) = bget b (row + 3) col ∧
              bget b (row + 3) col ≠ Cell.E then
        some (bget b row (col + 3))
      else
        none

/-- Result of `Connect4.winner`: a winning mark, the draw marker "D", or
Python `None` (game not over). -/
inductive Outcome
  | win (m : Cell)
  | draw
  | ongoing
deriving DecidableEq, Repr

/-- Python `Connect4.winner()`: row scan, then column scan, then diagonal
scan; if none hits, return `None` as soon as a top-row cell is " ",
else "D". -/
def winner (env : Connect4) : Outcome :=
  match rowCheck env.board with
  | some m => Outcome.win m
  | none =>
    match colCheck env.board with
    | some m => Outcome.win m
    | none =>
      match diagCheck env.board with
      | some m => Outcome.win m
      | none =>
        if (List.range 7).all (fun col => bget env.board 0 col ≠ Cell.E) then
          Outcome.draw
        else
          Outcome.ongoing

/-- Python character of a cell, for `get_state`. -/
def cellChar : Cell → Char
  | Cell.E => ' '
  | Cell.R => 'R'
  | Cell.Y => 'Y'

/-- The Q-table key type: a state string paired with a column index. -/
abbrev StateKey := String

/-- Python dict `self.Q`, modelled as an association list in insertion
order: lookup takes the first matching key, assignment overwrites the
first matching entry or appends a fresh one. -/
abbrev QTable := List ((StateKey × Nat) × ℚ)

/-- Python `self.Q.get(k, 0)`. -/
def qget : QTable → StateKey × Nat → ℚ
  | [], _ => 0
  | e :: es, k => if e.1 = k then e.2 else qget es k

/-- Python `self.Q[k] = v`. -/
def qset : QTable → StateKey × Nat → ℚ → QTable
  | [], k, v => [(k, v)]
  | e :: es, k, v => if e.1 = k then (k, v) :: es else e :: qset es k v

/-- The learning agent: `QLearningAgent.__init__` fields. -/
structure QLearningAgent where
  name : String
  alpha : ℚ
  gamma : ℚ
  Q : QTable

/-- Python `QLearningAgent.__init__(alpha=0.1, gamma=0.9)`: stores the
arguments unchanged (no range validation, no epsilon parameter) and
starts with an empty table. -/
def mkQLearningAgent (alpha : ℚ := 1/10) (gamma : ℚ := 9/10) : QLearningAgent :=
  { name := "QLearning Agent", alpha := alpha, gamma := gamma, Q := [] }

/-- Python `QLearningAgent.get_state(env)`: the row-major string of all
42 cells. -/
def get_state (env : Connect4) : StateKey :=
  String.mk ((List.range 6).flatMap fun row =>
    (List.range 7).map fun col => cellChar (bget env.board row col))

/-- The list comprehension
`valid_actions = [col for col in range(7) if env.play(col)]`: each
`env.play(col)` call is evaluated left to right and mutates `env`. -/
def collectValidAux (env : Connect4) : List Nat → List Nat × Connect4
  | [] => ([], env)
  | c :: cs =>
      let res := play env c
      let rest := collectValidAux res.2 cs
      (if res.1 then c :: rest.1 else rest.1, rest.2)

/-- The argmax loop of `choose_action`: `best_value` starts at
`float('-inf')` (here `none`), and a strictly greater Q-value replaces
the incumbent. -/
def bestAux (Q : QTable) (state : StateKey) :
    List Nat → Nat → Option ℚ → Nat
  | [], best, _ => best
  | a :: as, best, bv =>
      let q := qget Q (state, a)
      if (match bv with
          | none => true
          | some v => decide (v < q)) then
        bestAux Q state as a (some q)
      else
        bestAux Q state as best bv

/-- The exploitation path of `QLearningAgent.choose_action`: compute the
state string, filter columns 0..6 through live `play` calls, return
`None` if none succeeded, else the argmax over the collected columns. -/
def chooseActionExploit (ag : QLearningAgent) (env : Connect4) :
    Option Nat × Connect4 :=
  let state := get_state env
  let res := collectValidAux env (List.range 7)
  match res.1 with
  | [] => (none, res.2)
  | v :: _ => (some (bestAux ag.Q state res.1 v none), res.2)

/-- Python `QLearningAgent.choose_action(env)`: with the random draw
below the hard-coded 0.1 the agent returns the random column unchecked;
otherwise it runs the exploitation path. -/
def choose_action (ag : QLearningAgent) (env : Connect4)
    (randUniform : ℚ) (randCol : Nat) : Option Nat × Connect4 :=
  if randUniform < 1/10 then
    (some randCol, env)
  else
    chooseActionExploit ag env

/-- Python `max(self.Q.get((next_state, a), 0) for a in range(7))`:
the maximum of the seven lookups (the generator is never empty). -/
def maxQNext (Q : QTable) (next_state : StateKey) : ℚ :=
  (((List.range 7).map fun a => qget Q (next_state, a)).max?).getD 0

/-- Python `QLearningAgent.update(state, action, reward, next_state)`. -/
def update (ag : QLearningAgent) (state : StateKey) (action : Nat)
    (reward : ℚ) (next_state : StateKey) : QLearningAgent :=
  let q_value := qget ag.Q (state, action)
  let max_q_next := maxQNext ag.Q next_state
  let new_q_value := q_value + ag.alpha * (reward + ag.gamma * max_q_next - q_value)
  { ag with Q := qset ag.Q (state, action) new_q_value }

/-- Sequential application of `play` to a list of chosen columns,
discarding the returned booleans (a failed `play` is a no-op). -/
def playList (env : Connect4) : List Nat → Connect4
  | [] => env
  | c :: cs => playList (play env c).2 cs

/-- Row-major list of the 42 cell coordinates. -/
def allCoords : List (Nat × Nat) :=
  (List.range 6).flatMap fun r => (List.range 7).map fun c => (r, c)

/-- Number of occupied (non-empty) cells of the grid. -/
def occupiedCount (b : Board) : Nat :=
  allCoords.countP fun p => decide (bget b p.1 p.2 ≠ Cell.E)

/-- Number of occupied cells in column `c`. -/
def colCount (b : Board) (c : Nat) : Nat :=
  (List.range 6).countP fun r => decide (bget b r c ≠ Cell.E)

/-- Gravity invariant of §3: within any column the occupied cells are
contiguous from the bottom row (row 5) upward — a cell below (larger row
index than) an occupied cell is occupied. -/
def Contig (b : Board) : Prop :=
  ∀ c r r', r ≤ r' → r' ≤ 5 → bget b r c ≠ Cell.E → bget b r' c ≠ Cell.E

/-- Test board: column 0 has rows 1..5 occupied but its top cell (row 0)
still EMPTY; all other columns empty. -/
def col0FullEnv : Connect4 :=
  { board := fun r c => if c.val = 0 ∧ 1 ≤ r.val then Cell.R else Cell.E,
    current_player := Cell.R }

/-- Row-colour parity used by `fullDrawEnv`. -/
def xpar (r : Nat) : Nat := if r = 2 ∨ r = 3 then 1 else 0

/-- Test board: all 42 cells occupied, in a pattern with no four equal
marks in a row, column or diagonal. -/
def fullDrawEnv : Connect4 :=
  { board := fun r c => if (xpar r.val + c.val) % 2 = 0 then Cell.R else Cell.Y,
    current_player := Cell.R }

/-! ## General lemmas about `play` -/

/-- Case analysis of one `play` call: either it fails and returns the
state unchanged, or it marks the lowest empty cell among rows 5..1 of the
column (every visited row below it being occupied) and toggles the
player. -/
theorem play_spec (env : Connect4) (c : Nat) :
    ((play env c).1 = false ∧ (play env c).2 = env) ∨
    (∃ r : Nat, 1 ≤ r ∧ r ≤ 5 ∧ bget env.board r c = Cell.E ∧
      (∀ s, r < s → s ≤ 5 → bget env.board s c ≠ Cell.E) ∧
      (play env c).1 = true ∧
      (play env c).2.board = bset env.board r c env.current_player ∧
      (play env c).2.current_player = toggle env.current_player) := by
  simp only [play, playAux]
  split_ifs with h5 h4 h3 h2 h1
  · exact Or.inr ⟨5, by omega, by omega, h5, fun s hs hs' => by omega, rfl, rfl, rfl⟩
  · refine Or.inr ⟨4, by omega, by omega, h4, ?_, rfl, rfl, rfl⟩
    intro s hs hs'
    have : s = 5 := by omega
    simpa [this] using h5
  · refine Or.inr ⟨3, by omega, by omega, h3, ?_, rfl, rfl, rfl⟩
    intro s hs hs'
    interval_cases s
    · simpa using h4
    · simpa using h5
  · refine Or.inr ⟨2, by omega, by omega, h2, ?_, rfl, rfl, rfl⟩
    intro s hs hs'
    interval_cases s
    · simpa using h3
    · simpa using h4
    · simpa using h5
  · refine Or.inr ⟨1, by omega, by omega, h1, ?_, rfl, rfl, rfl⟩
    intro s hs hs'
    interval_cases s
    · simpa using h2
    · simpa using h3
    · simpa using h4
    · simpa using h5
  · exact Or.inl ⟨rfl, rfl⟩

theorem play_fail_eq {env : Connect4} {c : Nat}
    (h : (play env c).1 = false) : (play env c).2 = env := by
  rcases play_spec env c with ⟨_, he⟩ | ⟨r, _, _, _, _, ht, _, _⟩
  · exact he
  · rw [ht] at h; exact absurd h (by simp)

theorem toggle_ne (p : Cell) : toggle p ≠ p := by
  cases p <;> decide

theorem toggle_ne_E (p : Cell) : toggle p ≠ Cell.E := by
  cases p <;> decide

theorem play_player_ne_E {env : Connect4} (hp : env.current_player ≠ Cell.E)
    (c : Nat) : (play env c).2.current_player ≠ Cell.E := by
  rcases play_spec env c with ⟨_, he⟩ | ⟨r, _, _, _, _, _, _, hpl⟩
  · rw [he]; exact hp
  · rw [hpl]; exact toggle_ne_E _

/-! ## Claim C7: a rejected drop changes nothing -/

/-- C7: when `play` rejects a drop it leaves the whole state — every grid
cell and `current_player` — unchanged, and `current_player` changes
exactly on the successful calls (where it becomes the toggled player,
which always differs from the old one). -/
theorem play_reject_no_change (env : Connect4) (c : Nat) :
    ((play env c).1 = false →
      (play env c).2 = env ∧
      (∀ r c', bget (play env c).2.board r c' = bget env.board r c') ∧
      (play env c).2.current_player = env.current_player) ∧
    ((play env c).1 = true →
      (play env c).2.current_player = toggle env.current_player ∧
      (play env c).2.current_player ≠ env.current_player) := by
  constructor
  · intro hf
    have he := play_fail_eq hf
    exact ⟨he, fun r c' => by rw [he], by rw [he]⟩
  · intro ht
    rcases play_spec env c with ⟨hf, _⟩ | ⟨r, _, _, _, _, _, _, hpl⟩
    · rw [ht] at hf; exact absurd hf (by simp)
    · exact ⟨hpl, by rw [hpl]; exact toggle_ne _⟩

/-- Witness for `play_reject_no_change`: the drop into column 0 of
`col0FullEnv` is rejected and the state is returned unchanged. -/
theorem play_reject_no_change_witness :
    (play col0FullEnv 0).1 = false ∧ (play col0FullEnv 0).2 = col0FullEnv :=
  ⟨by decide, ((play_reject_no_change col0FullEnv 0).1 (by decide)).1⟩

/-! ## Claim C1: the scan misses the top row -/

/-- C1 (refuting evidence): in `col0FullEnv` column 0 still has an EMPTY
cell — its top cell, row 0 — yet `play` returns `false` and changes
nothing, because `range(5, 0, -1)` stops before row 0. The claimed
equivalence "a move is legal iff row 0 is EMPTY" therefore fails on the
code: the first conjunct below is exactly that row 0 of column 0 is
EMPTY, while the drop is nevertheless rejected. -/
theorem play_misses_empty_top_cell :
    bget col0FullEnv.board 0 0 = Cell.E ∧
    (play col0FullEnv 0).1 = false ∧
    (play col0FullEnv 0).2 = col0FullEnv := by decide

/-! ## Claim C3: the Bellman update -/

theorem qget_qset_self (Q : QTable) (k : StateKey × Nat) (v : ℚ) :
    qget (qset Q k v) k = v := by
  induction Q with
  | nil => simp [qset, qget]
  | cons e es ih =>
      by_cases h : e.1 = k
      · simp [qset, h, qget]
      · simp [qset, h, qget, ih]

theorem qget_qset_ne (Q : QTable) (k k' : StateKey × Nat) (v : ℚ)
    (hne : k' ≠ k) : qget (qset Q k v) k' = qget Q k' := by
  have hkk : k ≠ k' := Ne.symm hne
  induction Q with
  | nil => simp [qset, qget, hkk]
  | cons e es ih =>
      by_cases h : e.1 = k
      · have he : e.1 ≠ k' := by rw [h]; exact hkk
        simp [qset, h, qget, hkk, he]
      · by_cases h' : e.1 = k'
        · simp [qset, h, qget, h', hne]
        · simp [qset, h, qget, h', ih]

theorem maxQNext_spec (Q : QTable) (s : StateKey) :
    (∃ a, a < 7 ∧ maxQNext Q s = qget Q (s, a)) ∧
    (∀ a, a < 7 → qget Q (s, a) ≤ maxQNext Q s) := by
  set l : List ℚ := (List.range 7).map fun a => qget Q (s, a) with hl
  have hne : l ≠ [] := by simp [hl]
  cases hm : l.max? with
  | none => exact absurd (List.max?_eq_none_iff.mp hm) hne
  | some m =>
      have hmax : maxQNext Q s = m := by
        simp [maxQNext, ← hl, hm]
      have hmem : m ∈ l := List.max?_mem max_choice hm
      have hbound : ∀ b ∈ l, b ≤ m :=
        (List.max?_le_iff (fun a b c => max_le_iff) hm).mp (le_refl m)
      constructor
      · rcases List.mem_map.mp (hl ▸ hmem) with ⟨a, ha, hav⟩
        exact ⟨a, List.mem_range.mp ha, by rw [hmax, ← hav]⟩
      · intro a ha
        rw [hmax]
        exact hbound _ (by
          rw [hl]
          exact List.mem_map.mpr ⟨a, List.mem_range.mpr ha, rfl⟩)

/-- C3: `update` overwrites the entry for `(s, a)` with exactly
`Q[s,a] + alpha * (r + gamma * max Q[s',.] - Q[s,a])` (an absent entry
reading as 0), where the max is attained among and bounds all seven
column indices 0..6 (absent entries again reading as 0), and every
other entry of the table is unchanged, as are `alpha` and `gamma`. -/
theorem update_bellman (ag : QLearningAgent) (s : StateKey) (a : Nat)
    (r : ℚ) (s' : StateKey) (ha : a < 7) :
    qget (update ag s a r s').Q (s, a) =
      qget ag.Q (s, a) +
        ag.alpha * (r + ag.gamma * maxQNext ag.Q s' - qget ag.Q (s, a)) ∧
    (∃ a', a' < 7 ∧ maxQNext ag.Q s' = qget ag.Q (s', a')) ∧
    (∀ a', a' < 7 → qget ag.Q (s', a') ≤ maxQNext ag.Q s') ∧
    (∀ k : StateKey × Nat, k ≠ (s, a) →
      qget (update ag s a r s').Q k = qget ag.Q k) ∧
    (update ag s a r s').alpha = ag.alpha ∧
    (update ag s a r s').gamma = ag.gamma := by
  refine ⟨?_, (maxQNext_spec ag.Q s').1, (maxQNext_spec ag.Q s').2, ?_, rfl, rfl⟩
  · simp only [update]
    exact qget_qset_self _ _ _
  · intro k hk
    simp only [update]
    exact qget_qset_ne _ _ _ _ hk

/-- Witness for `update_bellman`: starting from the empty table with the
default agent, `update "s" 3 5 "t"` stores `0 + 0.1 * (5 + 0.9 * 0 - 0)
= 1/2` at `("s", 3)` and leaves `("t", 0)` at its default 0. -/
theorem update_bellman_witness :
    (3 : Nat) < 7 ∧
    qget (update (mkQLearningAgent) "s" 3 5 "t").Q ("s", 3) = 1/2 ∧
    qget (update (mkQLearningAgent) "s" 3 5 "t").Q ("t", 0) = 0 := by
  refine ⟨by norm_num, ?_, ?_⟩
  · have h := (update_bellman (mkQLearningAgent) "s" 3 5 "t" (by norm_num)).1
    rw [h]
    norm_num [mkQLearningAgent, qget, maxQNext, List.range_succ]
  · have h := (update_bellman (mkQLearningAgent) "s" 3 5 "t" (by norm_num)).2.2.2.1
        ("t", 0) (by decide)
    rw [h]
    simp [mkQLearningAgent, qget]

/-! ## Claim C9: agent construction -/

/-- C9 (refuting evidence): constructing the agent with `alpha = 5`
(outside (0,1]) and `gamma = -2` (outside [0,1]) raises no configuration
error; the constructor is total, stores both values unchanged, and its
signature has no epsilon option at all. -/
theorem mkQLearningAgent_accepts_invalid :
    (mkQLearningAgent 5 (-2)).alpha = 5 ∧
    (mkQLearningAgent 5 (-2)).gamma = -2 ∧
    (mkQLearningAgent 5 (-2)).name = "QLearning Agent" ∧
    (mkQLearningAgent 5 (-2)).Q = [] :=
  ⟨rfl, rfl, rfl, rfl⟩

/-- C9 amended: the constructor takes only `alpha` (default 0.1) and
`gamma` (default 0.9) and stores any given values without validation;
the exploration probability is not configurable — it is the hard-coded
threshold 0.1 against which `choose_action` compares its random draw. -/
theorem mkQLearningAgent_construction (a g : ℚ) :
    (mkQLearningAgent a g).alpha = a ∧
    (mkQLearningAgent a g).gamma = g ∧
    (mkQLearningAgent a g).Q = [] ∧
    (mkQLearningAgent).alpha = 1/10 ∧
    (mkQLearningAgent).gamma = 9/10 ∧
    (∀ ag env u rc, u < 1/10 → choose_action ag env u rc = (some rc, env)) ∧
    (∀ ag env u rc, ¬ u < 1/10 →
      choose_action ag env u rc = chooseActionExploit ag env) := by
  refine ⟨rfl, rfl, rfl, rfl, rfl, ?_, ?_⟩
  · intro ag env u rc hu
    simp only [choose_action]
    rw [if_pos hu]
  · intro ag env u rc hu
    simp only [choose_action]
    rw [if_neg hu]

/-- Witness for `mkQLearningAgent_construction`: instantiated at the
invalid pair (5, -2); a random draw of 0 takes the exploration branch,
one of 1/2 does not. -/
theorem mkQLearningAgent_construction_witness :
    (mkQLearningAgent 5 (-2)).alpha = 5 ∧
    ((0 : ℚ) < 1/10 ∧
      choose_action (mkQLearningAgent 5 (-2)) Connect4.init 0 3 =
        (some 3, Connect4.init)) ∧
    (¬ ((1 : ℚ)/2 < 1/10) ∧
      choose_action (mkQLearningAgent 5 (-2)) Connect4.init (1/2) 3 =
        chooseActionExploit (mkQLearningAgent 5 (-2)) Connect4.init) :=
  ⟨(mkQLearningAgent_construction 5 (-2)).1,
   ⟨by norm_num,
    (mkQLearningAgent_construction 5 (-2)).2.2.2.2.2.1 _ _ _ _ (by norm_num)⟩,
   ⟨by norm_num,
    (mkQLearningAgent_construction 5 (-2)).2.2.2.2.2.2 _ _ _ _ (by norm_num)⟩⟩

/-! ## Claim C4: a board with no legal moves -/

theorem collectValidAux_all_fail (l : List Nat) (env : Connect4)
    (h : ∀ c ∈ l, (play env c).1 = false) :
    collectValidAux env l = ([], env) := by
  induction l with
  | nil => rfl
  | cons c cs ih =>
      have hc := h c (List.mem_cons_self c cs)
      have he := play_fail_eq hc
      simp only [collectValidAux, hc, he]
      simpa [ih (fun d hd => h d (List.mem_cons_of_mem c hd))]

/-- C4 (refuting evidence): on `fullDrawEnv` no column accepts a piece
(every `play` fails), yet a random draw of 1/20 takes the exploration
branch and `choose_action` returns column 3 rather than the NO_MOVE
sentinel `none`. -/
theorem choose_action_full_board_explores :
    ((List.range 7).all fun c => !(play fullDrawEnv c).1) = true ∧
    (choose_action (mkQLearningAgent) fullDrawEnv (1/20) 3).1 = some 3 := by
  constructor
  · decide
  · norm_num [choose_action]

/-- C4 amended: whenever the exploration branch is not taken (random
draw at least 0.1), `choose_action` on a board with no legal moves
returns the sentinel `none`, with the board unchanged. -/
theorem choose_action_no_moves (ag : QLearningAgent) (env : Connect4)
    (u : ℚ) (rc : Nat) (hu : ¬ u < 1/10)
    (hfull : ∀ c, c < 7 → (play env c).1 = false) :
    choose_action ag env u rc = (none, env) := by
  have hcoll : collectValidAux env (List.range 7) = ([], env) :=
    collectValidAux_all_fail _ _ (fun c hc => hfull c (List.mem_range.mp hc))
  simp only [choose_action]
  rw [if_neg hu]
  simp [chooseActionExploit, hcoll]

/-- Witness for `choose_action_no_moves`: on the full board with a
random draw of 1/2 the agent reports `none`. -/
theorem choose_action_no_moves_witness :
    ¬ ((1 : ℚ)/2 < 1/10) ∧
    choose_action (mkQLearningAgent) fullDrawEnv (1/2) 3 = (none, fullDrawEnv) :=
  ⟨by norm_num,
   choose_action_no_moves (mkQLearningAgent) fullDrawEnv (1/2) 3 (by norm_num)
     (by decide)⟩

/-! ## Claim C5: draw versus ongoing without a winning line -/

/-- A winning line as §3 of the spec words it: four identical non-empty
cells contiguous along a row, a column, or either diagonal direction,
anywhere on the grid. -/
def HasWinLine (b : Board) : Prop :=
  (∃ r ∈ List.range 6, ∃ c ∈ List.range 4,
    bget b r c ≠ Cell.E ∧ bget b r (c+1) = bget b r c ∧
    bget b r (c+2) = bget b r c ∧ bget b r (c+3) = bget b r c) ∨
  (∃ c ∈ List.range 7, ∃ r ∈ List.range 3,
    bget b r c ≠ Cell.E ∧ bget b (r+1) c = bget b r c ∧
    bget b (r+2) c = bget b r c ∧ bget b (r+3) c = bget b r c) ∨
  (∃ r ∈ List.range 3, ∃ c ∈ List.range 4,
    bget b r c ≠ Cell.E ∧ bget b (r+1) (c+1) = bget b r c ∧
    bget b (r+2) (c+2) = bget b r c ∧ bget b (r+3) (c+3) = bget b r c) ∨
  (∃ r ∈ List.range 3, ∃ c ∈ List.range 4,
    bget b r (c+3) ≠ Cell.E ∧ bget b (r+1) (c+2) = bget b r (c+3) ∧
    bget b (r+2) (c+1) = bget b r (c+3) ∧ bget b (r+3) c = bget b r (c+3))

instance (b : Board) : Decidable (HasWinLine b) := by
  unfold HasWinLine
  infer_instance

theorem rowCheck_eq_none {b : Board} (h : ¬ HasWinLine b) :
    rowCheck b = none := by
  rw [rowCheck]
  apply List.findSome?_eq_none_iff.mpr
  intro r hr
  apply List.findSome?_eq_none_iff.mpr
  intro c hc
  split_ifs with hcond
  · obtain ⟨h1, h2, h3, h4⟩ := hcond
    refine absurd (Or.inl ⟨r, hr, c, hc, ?_, h1.symm, (h1.trans h2).symm,
      (h1.trans (h2.trans h3)).symm⟩) h
    rw [h1, h2, h3]; exact h4
  · rfl

theorem colCheck_eq_none {b : Board} (h : ¬ HasWinLine b) :
    colCheck b = none := by
  rw [colCheck]
  apply List.findSome?_eq_none_iff.mpr
  intro c hc
  apply List.findSome?_eq_none_iff.mpr
  intro r hr
  split_ifs with hcond
  · obtain ⟨h1, h2, h3, h4⟩ := hcond
    refine absurd (Or.inr (Or.inl ⟨c, hc, r, hr, ?_, h1.symm, (h1.trans h2).symm,
      (h1.trans (h2.trans h3)).symm⟩)) h
    rw [h1, h2, h3]; exact h4
  · rfl

theorem diagCheck_eq_none {b : Board} (h : ¬ HasWinLine b) :
    diagCheck b = none := by
  rw [diagCheck]
  apply List.findSome?_eq_none_iff.mpr
  intro r hr
  apply List.findSome?_eq_none_iff.mpr
  intro c hc
  split_ifs with hd ha
  · obtain ⟨h1, h2, h3, h4⟩ := hd
    refine absurd (Or.inr (Or.inr (Or.inl ⟨r, hr, c, hc, ?_, h1.symm,
      (h1.trans h2).symm, (h1.trans (h2.trans h3)).symm⟩))) h
    rw [h1, h2, h3]; exact h4
  · obtain ⟨h1, h2, h3, h4⟩ := ha
    refine absurd (Or.inr (Or.inr (Or.inr ⟨r, hr, c, hc, ?_, h1.symm,
      (h1.trans h2).symm, (h1.trans (h2.trans h3)).symm⟩))) h
    rw [h1, h2, h3]; exact h4
  · rfl

theorem winner_no_line (env : Connect4) (h : ¬ HasWinLine env.board) :
    winner env =
      (if (List.range 7).all (fun col => bget env.board 0 col ≠ Cell.E) then
        Outcome.draw
      else
        Outcome.ongoing) := by
  simp only [winner, rowCheck_eq_none h, colCheck_eq_none h, diagCheck_eq_none h]

/-- C5: `winner` reads only the grid; on a grid with no winning line it
returns DRAW exactly when no top-row cell is EMPTY and ONGOING exactly
when one is; on the empty board it returns ONGOING, and on the
completely filled line-free board `fullDrawEnv` it returns DRAW. -/
theorem winner_draw_iff_top_full :
    (∀ (b : Board) (p q : Cell), winner ⟨b, p⟩ = winner ⟨b, q⟩) ∧
    (∀ env : Connect4, ¬ HasWinLine env.board →
      ((winner env = Outcome.draw ↔
          ∀ c ∈ List.range 7, bget env.board 0 c ≠ Cell.E) ∧
       (winner env = Outcome.ongoing ↔
          ∃ c ∈ List.range 7, bget env.board 0 c = Cell.E))) ∧
    winner Connect4.init = Outcome.ongoing ∧
    (¬ HasWinLine fullDrawEnv.board ∧
      (∀ c ∈ List.range 7, ∀ r ∈ List.range 6,
        bget fullDrawEnv.board r c ≠ Cell.E) ∧
      winner fullDrawEnv = Outcome.draw) := by
  refine ⟨fun b p q => rfl, ?_, by decide, by decide⟩
  intro env h
  rw [winner_no_line env h]
  split_ifs with hall
  · simp only [List.all_eq_true, decide_eq_true_iff] at hall
    exact ⟨iff_of_true rfl hall,
      iff_of_false (by intro hcontra; cases hcontra)
        (by rintro ⟨c, hc, hce⟩; exact absurd hce (hall c hc))⟩
  · simp only [List.all_eq_true, decide_eq_true_iff, not_forall] at hall
    obtain ⟨c, hc, hce⟩ := hall
    have hce' : bget env.board 0 c = Cell.E := by
      by_contra hne; exact hce hne
    exact ⟨iff_of_false (by intro hcontra; cases hcontra)
        (fun hforall => absurd hce' (hforall c hc)),
      iff_of_true rfl ⟨c, hc, hce'⟩⟩

/-- Witness for `winner_draw_iff_top_full`: instantiated at the filled
line-free board. -/
theorem winner_draw_iff_top_full_witness :
    ¬ HasWinLine fullDrawEnv.board ∧
    (winner fullDrawEnv = Outcome.draw ↔
      ∀ c ∈ List.range 7, bget fullDrawEnv.board 0 c ≠ Cell.E) :=
  ⟨by decide, (winner_draw_iff_top_full.2.1 fullDrawEnv (by decide)).1⟩

/-! ## Claims C6 and C10: invariants along play sequences -/

theorem bget_bset (b : Board) (r c : Nat) (v : Cell) (i j : Nat) :
    bget (bset b r c v) i j =
      if i = r ∧ j = c ∧ i < 6 ∧ j < 7 then v else bget b i j := by
  by_cases hin : i < 6 ∧ j < 7
  · by_cases hrc : i = r ∧ j = c
    · obtain ⟨hir, hjc⟩ := hrc
      subst hir; subst hjc
      simp [bget, bset, hin.1, hin.2]
    · rw [if_neg (by tauto)]
      simp only [bget, bset]
      rw [dif_pos hin, dif_pos hin]
      rw [if_neg (by simpa using hrc)]
  · rw [if_neg (by tauto)]
    simp only [bget]
    rw [dif_neg hin, dif_neg hin]

theorem contig_play (env : Connect4) (c : Nat)
    (hcont : Contig env.board) : Contig (play env c).2.board := by
  rcases play_spec env c with ⟨_, he⟩ | ⟨r, hr1, hr5, hrE, habove, _, hb, _⟩
  · rw [he]; exact hcont
  · rw [hb]
    intro c0 i i' hii hi'5 hne
    rw [bget_bset] at hne ⊢
    by_cases h2 : i' = r ∧ c0 = c ∧ i' < 6 ∧ c0 < 7
    · rw [if_pos h2]
      by_cases h1 : i = r ∧ c0 = c ∧ i < 6 ∧ c0 < 7
      · rwa [if_pos h1] at hne
      · rw [if_neg h1] at hne
        have hir : i ≠ r := by
          intro hir
          exact h1 ⟨hir, h2.2.1, by omega, h2.2.2.2⟩
        have hlt : i < r := by omega
        have : bget env.board r c0 ≠ Cell.E :=
          hcont c0 i r (by omega) (by omega) hne
        rw [h2.2.1] at this
        exact absurd hrE this
    · rw [if_neg h2]
      by_cases h1 : i = r ∧ c0 = c ∧ i < 6 ∧ c0 < 7
      · have hir' : i' ≠ r := by
          intro hir'
          exact h2 ⟨hir', h1.2.1, by omega, h1.2.2.2⟩
        have hgt : r < i' := by omega
        rw [h1.2.1]
        exact habove i' hgt hi'5
      · rw [if_neg h1] at hne
        exact hcont c0 i i' hii hi'5 hne

theorem contig_playList (cols : List Nat) (env : Connect4)
    (h : Contig env.board) : Contig (playList env cols).board := by
  induction cols generalizing env with
  | nil => exact h
  | cons c cs ih => exact ih _ (contig_play env c h)

theorem contig_init : Contig Connect4.init.board := by
  intro c r r' _ _ hne
  exfalso
  apply hne
  unfold bget
  split <;> rfl

theorem colCount_le_six (b : Board) (c : Nat) : colCount b c ≤ 6 := by
  simpa [colCount] using
    List.countP_le_length (fun r => decide (bget b r c ≠ Cell.E))
      (l := List.range 6)

/-- C6: along every sequence of drops from the initial board — in
particular every sequence of successful ones — no column ever holds more
than six occupied cells, and the occupied cells of each column stay
contiguous from the bottom row upward (no EMPTY cell below an occupied
cell). -/
theorem play_sequence_gravity (cols : List Nat) (hcols : ∀ c ∈ cols, c < 7) :
    (∀ c : Nat, colCount (playList Connect4.init cols).board c ≤ 6) ∧
    Contig (playList Connect4.init cols).board :=
  ⟨fun c => colCount_le_six _ c, contig_playList cols Connect4.init contig_init⟩

/-- Witness for `play_sequence_gravity`: three drops into column 3. -/
theorem play_sequence_gravity_witness :
    (∀ c ∈ [3, 3, 3], c < 7) ∧
    colCount (playList Connect4.init [3, 3, 3]).board 3 ≤ 6 ∧
    Contig (playList Connect4.init [3, 3, 3]).board :=
  ⟨by decide, (play_sequence_gravity [3, 3, 3] (by decide)).1 3,
   (play_sequence_gravity [3, 3, 3] (by decide)).2⟩

theorem play_top_row (env : Connect4) (c : Nat) (j : Fin 7) :
    (play env c).2.board 0 j = env.board 0 j := by
  rcases play_spec env c with ⟨_, he⟩ | ⟨r, hr1, _, _, _, _, hb, _⟩
  · rw [he]
  · rw [hb]
    show (if (0 : Fin 6).val = r ∧ j.val = c then env.current_player
          else env.board 0 j) = env.board 0 j
    rw [if_neg]
    rintro ⟨h0, _⟩
    simp only [Fin.val_zero] at h0
    omega

theorem playList_top_empty (cols : List Nat) (env : Connect4)
    (htop : ∀ j : Fin 7, env.board 0 j = Cell.E) :
    ∀ j : Fin 7, (playList env cols).board 0 j = Cell.E := by
  induction cols generalizing env with
  | nil => exact htop
  | cons c cs ih =>
      exact ih _ (fun j => by rw [play_top_row]; exact htop j)

theorem colCount_le_five {b : Board} {c : Nat} (h : bget b 0 c = Cell.E) :
    colCount b c ≤ 5 := by
  have h6 : List.range 6 = 0 :: [1, 2, 3, 4, 5] := rfl
  have hp : (decide (bget b 0 c ≠ Cell.E)) = false := by simp [h]
  have hle := List.countP_le_length (fun r => decide (bget b r c ≠ Cell.E))
      (l := [1, 2, 3, 4, 5])
  rw [colCount, h6, List.countP_cons, hp]
  simp only [List.length_cons, List.length_nil] at hle
  simp only [Bool.false_eq_true, if_false, add_zero]
  exact hle

theorem winner_ne_draw_of_top_empty {env : Connect4}
    (h : bget env.board 0 0 = Cell.E) : winner env ≠ Outcome.draw := by
  unfold winner
  split
  · simp
  · split
    · simp
    · split
      · simp
      · split_ifs with hall
        · exfalso
          have h0 := List.all_eq_true.mp hall 0 (by simp)
          simp only [decide_eq_true_iff] at h0
          exact h0 h
        · simp

/-- C10: `play` never writes to the top row (row 0); hence on every
board reachable from the initial board the top row is entirely EMPTY,
every column holds at most 5 marks, and `winner` never returns DRAW. -/
theorem play_never_fills_top_row :
    (∀ (env : Connect4) (c : Nat) (j : Fin 7),
      (play env c).2.board 0 j = env.board 0 j) ∧
    (∀ cols : List Nat,
      (∀ j : Fin 7, (playList Connect4.init cols).board 0 j = Cell.E) ∧
      (∀ c, c < 7 → colCount (playList Connect4.init cols).board c ≤ 5) ∧
      winner (playList Connect4.init cols) ≠ Outcome.draw) := by
  refine ⟨play_top_row, fun cols => ?_⟩
  have htop := playList_top_empty cols Connect4.init (fun j => rfl)
  have hbget : ∀ c : Nat, c < 7 →
      bget (playList Connect4.init cols).board 0 c = Cell.E := by
    intro c hc
    unfold bget
    rw [dif_pos ⟨by omega, hc⟩]
    exact htop ⟨c, hc⟩
  refine ⟨htop, ?_, ?_⟩
  · intro c hc
    exact colCount_le_five (hbget c hc)
  · exact winner_ne_draw_of_top_empty (hbget 0 (by omega))

/-- Witness for `play_never_fills_top_row`: six drops into column 0
leave its count at 5 (the sixth is rejected) and the game undrawable. -/
theorem play_never_fills_top_row_witness :
    (0 : Nat) < 7 ∧
    colCount (playList Connect4.init [0, 0, 0, 0, 0, 0]).board 0 ≤ 5 :=
  ⟨by decide,
   (play_never_fills_top_row.2 [0, 0, 0, 0, 0, 0]).2.1 0 (by decide)⟩

/-! ## Claim C2: the exploitation path mutates the board -/

theorem countP_update (ps : List (Nat × Nat)) (f g : Nat × Nat → Bool)
    (p0 : Nat × Nat) (hmem : p0 ∈ ps) (hnd : ps.Nodup)
    (hsame : ∀ p ∈ ps, p ≠ p0 → g p = f p)
    (hf : f p0 = false) (hg : g p0 = true) :
    ps.countP g = ps.countP f + 1 := by
  induction ps with
  | nil => simp at hmem
  | cons q qs ih =>
      rw [List.countP_cons, List.countP_cons]
      obtain ⟨hqout, hqnd⟩ := List.nodup_cons.mp hnd
      by_cases hq : q = p0
      · subst hq
        have hcp : qs.countP g = qs.countP f :=
          List.countP_congr fun x hx => by
            have hxq : x ≠ q := fun hxx => hqout (hxx ▸ hx)
            rw [hsame x (List.mem_cons_of_mem _ hx) hxq]
        rw [hf, hg, hcp]
        simp
      · have hmem' : p0 ∈ qs := by
          rcases List.mem_cons.mp hmem with h | h
          · exact absurd h.symm hq
          · exact h
        have hrec := ih hmem' hqnd
          (fun p hp hpne => hsame p (List.mem_cons_of_mem _ hp) hpne)
        have hgq : g q = f q := hsame q (List.mem_cons_self _ _) hq
        rw [hgq, hrec]
        omega

theorem mem_allCoords {r c : Nat} (hr : r < 6) (hc : c < 7) :
    (r, c) ∈ allCoords := by
  unfold allCoords
  refine List.mem_flatMap.mpr ⟨r, List.mem_range.mpr hr, ?_⟩
  exact List.mem_map.mpr ⟨c, List.mem_range.mpr hc, rfl⟩

theorem occupiedCount_bset {b : Board} {r c : Nat} {v : Cell}
    (hr : r < 6) (hc : c < 7) (hE : bget b r c = Cell.E) (hv : v ≠ Cell.E) :
    occupiedCount (bset b r c v) = occupiedCount b + 1 := by
  apply countP_update _ _ _ (r, c)
  · exact mem_allCoords hr hc
  · decide
  · intro p hp hpne
    rw [bget_bset]
    rw [if_neg]
    rintro ⟨h1, h2, _⟩
    exact hpne (Prod.ext h1 h2)
  · simp [hE]
  · rw [bget_bset, if_pos ⟨rfl, rfl, hr, hc⟩]
    simpa using hv

theorem occupiedCount_play (env : Connect4) (c : Nat) (hc : c < 7)
    (hp : env.current_player ≠ Cell.E) :
    occupiedCount (play env c).2.board =
      occupiedCount env.board + (if (play env c).1 then 1 else 0) := by
  rcases play_spec env c with ⟨hf, he⟩ | ⟨r, hr1, hr5, hrE, _, ht, hb, _⟩
  · rw [he, hf]; simp
  · rw [hb, ht]
    simpa using occupiedCount_bset (by omega) hc hrE hp

theorem play_other_col (env : Connect4) (c : Nat) (i j : Nat) (hj : j ≠ c) :
    bget (play env c).2.board i j = bget env.board i j := by
  rcases play_spec env c with ⟨_, he⟩ | ⟨r, _, _, _, _, _, hb, _⟩
  · rw [he]
  · rw [hb, bget_bset, if_neg]
    rintro ⟨_, h2, _⟩
    exact hj h2

theorem playAux_flag_congr (rows : List Nat) (env1 env2 : Connect4) (c : Nat)
    (h : ∀ i, bget env1.board i c = bget env2.board i c) :
    (playAux env1 c rows).1 = (playAux env2 c rows).1 := by
  induction rows with
  | nil => rfl
  | cons r rs ih =>
      simp only [playAux]
      rw [h r]
      split_ifs <;> simp [ih]

theorem play_flag_congr (env1 env2 : Connect4) (c : Nat)
    (h : ∀ i, bget env1.board i c = bget env2.board i c) :
    (play env1 c).1 = (play env2 c).1 :=
  playAux_flag_congr [5, 4, 3, 2, 1] env1 env2 c h

theorem collectValidAux_spec (l : List Nat) (env : Connect4)
    (hnodup : l.Nodup) (hlt : ∀ c ∈ l, c < 7)
    (hp : env.current_player ≠ Cell.E) :
    (collectValidAux env l).1 = l.filter (fun c => (play env c).1) ∧
    occupiedCount (collectValidAux env l).2.board =
      occupiedCount env.board +
        (l.filter (fun c => (play env c).1)).length ∧
    (collectValidAux env l).2.current_player =
      toggle^[(l.filter (fun c => (play env c).1)).length]
        env.current_player := by
  induction l generalizing env with
  | nil => simp [collectValidAux]
  | cons c cs ih =>
      have hc7 : c < 7 := hlt c (List.mem_cons_self _ _)
      have hpc : (play env c).2.current_player ≠ Cell.E := play_player_ne_E hp c
      have hninc : c ∉ cs := (List.nodup_cons.mp hnodup).1
      obtain ⟨ih1, ih2, ih3⟩ := ih (play env c).2 (List.nodup_cons.mp hnodup).2
        (fun d hd => hlt d (List.mem_cons_of_mem _ hd)) hpc
      have hfc : cs.filter (fun d => (play (play env c).2 d).1) =
          cs.filter (fun d => (play env d).1) :=
        List.filter_congr fun d hd => by
          apply play_flag_congr
          intro i
          exact play_other_col env c i d (fun hdc => hninc (hdc ▸ hd))
      have hocc := occupiedCount_play env c hc7 hp
      cases hok : (play env c).1 with
      | true =>
          have hfilt : List.filter (fun d => (play env d).1) (c :: cs) =
              c :: List.filter (fun d => (play env d).1) cs := by
            rw [List.filter_cons, if_pos (by rw [hok])]
          have hto : (play env c).2.current_player = toggle env.current_player := by
            rcases play_spec env c with ⟨hf, _⟩ | ⟨r, _, _, _, _, _, _, hpl⟩
            · rw [hok] at hf; exact absurd hf (by simp)
            · exact hpl
          have hocc1 : occupiedCount (play env c).2.board =
              occupiedCount env.board + 1 := by
            rw [hok] at hocc
            simpa using hocc
          refine ⟨?_, ?_, ?_⟩
          · simp only [collectValidAux, hok, if_true]
            rw [ih1, hfc, hfilt]
          · simp only [collectValidAux, hok, if_true]
            rw [ih2, hfc, hfilt, List.length_cons, hocc1]
            omega
          · simp only [collectValidAux, hok, if_true]
            rw [ih3, hfc, hto, hfilt, List.length_cons,
              Function.iterate_succ_apply]
      | false =>
          have hfilt : List.filter (fun d => (play env d).1) (c :: cs) =
              List.filter (fun d => (play env d).1) cs := by
            rw [List.filter_cons, if_neg (by rw [hok]; exact Bool.false_ne_true)]
          have he := play_fail_eq hok
          rw [hok] at hocc
          rw [he] at ih1 ih2 ih3
          refine ⟨?_, ?_, ?_⟩
          · simp only [collectValidAux, hok, Bool.false_eq_true, if_false]
            rw [he, ih1, hfilt]
          · simp only [collectValidAux, hok]
            rw [he, ih2, hfilt]
          · simp only [collectValidAux, hok]
            rw [he, ih3, hfilt]

theorem chooseActionExploit_state (ag : QLearningAgent) (env : Connect4) :
    (chooseActionExploit ag env).2 = (collectValidAux env (List.range 7)).2 := by
  simp only [chooseActionExploit]
  rcases h : (collectValidAux env (List.range 7)).1 with _ | ⟨v, vs⟩ <;> simp [h]

/-- C2: the exploitation path of `choose_action` performs its legality
filtering by calling `play` on every column 0..6 of the live board and
returns the mutated state without undoing: the returned state is the one
after the seven attempts, carrying one new mark for every column that
was playable (occupied-cell count up by the number of playable columns,
`current_player` toggled once per success), so whenever any column is
playable the returned board differs from the input board. -/
theorem choose_action_exploit_mutates (ag : QLearningAgent) (env : Connect4)
    (hp : env.current_player ≠ Cell.E) :
    (∀ u rc, ¬ u < 1/10 →
      choose_action ag env u rc = chooseActionExploit ag env) ∧
    (chooseActionExploit ag env).2 = (collectValidAux env (List.range 7)).2 ∧
    (collectValidAux env (List.range 7)).1 =
      (List.range 7).filter (fun c => (play env c).1) ∧
    occupiedCount (chooseActionExploit ag env).2.board =
      occupiedCount env.board +
        ((List.range 7).filter (fun c => (play env c).1)).length ∧
    (chooseActionExploit ag env).2.current_player =
      toggle^[((List.range 7).filter (fun c => (play env c).1)).length]
        env.current_player ∧
    ((List.range 7).filter (fun c => (play env c).1) ≠ [] →
      (chooseActionExploit ag env).2.board ≠ env.board) := by
  obtain ⟨h1, h2, h3⟩ := collectValidAux_spec (List.range 7) env
    (List.nodup_range 7) (fun c hc => List.mem_range.mp hc) hp
  have hst := chooseActionExploit_state ag env
  refine ⟨?_, hst, h1, ?_, ?_, ?_⟩
  · intro u rc hu
    simp only [choose_action]
    rw [if_neg hu]
  · rw [hst]; exact h2
  · rw [hst]; exact h3
  · intro hne hbeq
    have hlen : 0 < ((List.range 7).filter (fun c => (play env c).1)).length :=
      List.length_pos.mpr hne
    have hocc : occupiedCount (chooseActionExploit ag env).2.board =
        occupiedCount env.board +
          ((List.range 7).filter (fun c => (play env c).1)).length := by
      rw [hst]; exact h2
    rw [hbeq] at hocc
    omega

/-- Witness for `choose_action_exploit_mutates`: on the empty initial
board all seven columns are playable, so the exploitation path returns a
board with seven marks on it. -/
theorem choose_action_exploit_mutates_witness :
    Connect4.init.current_player ≠ Cell.E ∧
    occupiedCount
        (chooseActionExploit (mkQLearningAgent) Connect4.init).2.board =
      occupiedCount Connect4.init.board +
        ((List.range 7).filter (fun c => (play Connect4.init c).1)).length :=
  ⟨by decide,
   (choose_action_exploit_mutates (mkQLearningAgent) Connect4.init
     (by decide)).2.2.2.1⟩

/-! ## Claim C8: scan order of the win checks -/

/-- Horizontal line starts in the claimed order: rows top to bottom,
start columns left to right. -/
def horizStarts : List (Nat × Nat) :=
  (List.range 6).flatMap fun r => (List.range 4).map fun c => (r, c)

/-- Vertical line starts in the claimed order: columns left to right,
start rows top to bottom. -/
def vertStarts : List (Nat × Nat) :=
  (List.range 7).flatMap fun c => (List.range 3).map fun r => (r, c)

/-- Diagonal line descriptors in the claimed order: start positions top
to bottom and left to right, each position contributing its down-right
(`true`) and then its down-left (`false`) diagonal. -/
def diagStarts : List (Nat × Nat × Bool) :=
  (List.range 3).flatMap fun r =>
    (List.range 4).flatMap fun c => [(r, c, true), (r, c, false)]

/-- The four cells of the horizontal line starting at `p`. -/
def horizLine (p : Nat × Nat) : List (Nat × Nat) :=
  [(p.1, p.2), (p.1, p.2 + 1), (p.1, p.2 + 2), (p.1, p.2 + 3)]

/-- The four cells of the vertical line starting at `p`. -/
def vertLine (p : Nat × Nat) : List (Nat × Nat) :=
  [(p.1, p.2), (p.1 + 1, p.2), (p.1 + 2, p.2), (p.1 + 3, p.2)]

/-- The four cells of a diagonal line descriptor. -/
def diagLine (d : Nat × Nat × Bool) : List (Nat × Nat) :=
  if d.2.2 then
    [(d.1, d.2.1), (d.1 + 1, d.2.1 + 1), (d.1 + 2, d.2.1 + 2),
     (d.1 + 3, d.2.1 + 3)]
  else
    [(d.1, d.2.1 + 3), (d.1 + 1, d.2.1 + 2), (d.1 + 2, d.2.1 + 1),
     (d.1 + 3, d.2.1)]

/-- Mark of a winning line: the common mark when all listed cells hold
the same non-empty mark, else `none`. -/
def markOfLine (b : Board) : List (Nat × Nat) → Option Cell
  | [] => none
  | p :: rest =>
      let m := bget b p.1 p.2
      if m ≠ Cell.E ∧ rest.all (fun q => bget b q.1 q.2 = m) then some m
      else none

/-- The evaluation order exactly as C8 words it: the mark of the first
winning line met scanning all horizontal starts, then all vertical
starts, then the diagonal descriptors; then the draw-or-ongoing test on
the top row. -/
def winnerSpec (env : Connect4) : Outcome :=
  match horizStarts.findSome? fun p => markOfLine env.board (horizLine p) with
  | some m => Outcome.win m
  | none =>
    match vertStarts.findSome? fun p => markOfLine env.board (vertLine p) with
    | some m => Outcome.win m
    | none =>
      match diagStarts.findSome? fun d => markOfLine env.board (diagLine d) with
      | some m => Outcome.win m
      | none =>
        if (List.range 7).all (fun col => bget env.board 0 col ≠ Cell.E) then
          Outcome.draw
        else
          Outcome.ongoing

theorem findSome?_congr {α β : Type} {f g : α → Option β} (l : List α)
    (h : ∀ x ∈ l, f x = g x) : l.findSome? f = l.findSome? g := by
  induction l with
  | nil => rfl
  | cons a as ih =>
      have h1 := h a (List.mem_cons_self _ _)
      have h2 := ih fun x hx => h x (List.mem_cons_of_mem _ hx)
      rw [List.findSome?_cons, List.findSome?_cons, h1, h2]

theorem findSome?_flatMap {α β γ : Type} (l : List α) (g : α → List β)
    (f : β → Option γ) :
    (l.flatMap g).findSome? f = l.findSome? fun x => (g x).findSome? f := by
  induction l with
  | nil => rfl
  | cons a as ih =>
      rw [List.flatMap_cons, List.findSome?_append, List.findSome?_cons]
      cases h : (g a).findSome? f <;> simp [h, Option.or, ih]

theorem markOfLine_quad (b : Board) (r1 c1 r2 c2 r3 c3 r4 c4 : Nat) :
    markOfLine b [(r1, c1), (r2, c2), (r3, c3), (r4, c4)] =
      if bget b r1 c1 = bget b r2 c2 ∧ bget b r2 c2 = bget b r3 c3 ∧
         bget b r3 c3 = bget b r4 c4 ∧ bget b r4 c4 ≠ Cell.E then
        some (bget b r1 c1)
      else none := by
  simp only [markOfLine, List.all_cons, List.all_nil, Bool.and_true,
    Bool.and_eq_true, decide_eq_true_eq]
  split_ifs with h1 h2 h3
  · rfl
  · exact absurd ⟨h1.2.1.symm, h1.2.1.trans h1.2.2.1.symm,
      h1.2.2.1.trans h1.2.2.2.symm,
      fun hv => h1.1 (h1.2.2.2.symm.trans hv)⟩ h2
  · have hm4 : bget b r1 c1 = bget b r4 c4 :=
      h3.1.trans (h3.2.1.trans h3.2.2.1)
    exact absurd ⟨fun hm => h3.2.2.2 (hm4.symm.trans hm),
      h3.1.symm, (h3.1.trans h3.2.1).symm, hm4.symm⟩ h1
  · rfl

theorem rowCheck_eq_spec (b : Board) :
    rowCheck b = horizStarts.findSome? fun p => markOfLine b (horizLine p) := by
  unfold rowCheck horizStarts
  rw [findSome?_flatMap]
  apply findSome?_congr
  intro r hr
  rw [List.findSome?_map]
  apply findSome?_congr
  intro c hc
  simp only [Function.comp_apply]
  rw [show horizLine (r, c) =
      [(r, c), (r, c + 1), (r, c + 2), (r, c + 3)] from rfl]
  rw [markOfLine_quad]

theorem colCheck_eq_spec (b : Board) :
    colCheck b = vertStarts.findSome? fun p => markOfLine b (vertLine p) := by
  unfold colCheck vertStarts
  rw [findSome?_flatMap]
  apply findSome?_congr
  intro c hc
  rw [List.findSome?_map]
  apply findSome?_congr
  intro r hr
  simp only [Function.comp_apply]
  rw [show vertLine (r, c) =
      [(r, c), (r + 1, c), (r + 2, c), (r + 3, c)] from rfl]
  rw [markOfLine_quad]

theorem diagCheck_eq_spec (b : Board) :
    diagCheck b = diagStarts.findSome? fun d => markOfLine b (diagLine d) := by
  unfold diagCheck diagStarts
  rw [findSome?_flatMap]
  apply findSome?_congr
  intro r hr
  rw [findSome?_flatMap]
  apply findSome?_congr
  intro c hc
  rw [List.findSome?_cons, List.findSome?_cons, List.findSome?_nil]
  rw [show diagLine (r, c, true) =
      [(r, c), (r + 1, c + 1), (r + 2, c + 2), (r + 3, c + 3)] from rfl]
  rw [show diagLine (r, c, false) =
      [(r, c + 3), (r + 1, c + 2), (r + 2, c + 1), (r + 3, c)] from rfl]
  rw [markOfLine_quad, markOfLine_quad]
  split_ifs <;> rfl

/-- C8: `winner` checks the win conditions exactly in the claimed
precedence order — all horizontal lines scanning rows top-to-bottom and
left-to-right, then all vertical lines scanning columns left-to-right
and top-to-bottom, then the diagonals scanning start positions
top-to-bottom and left-to-right with both orientations at each start —
and returns the mark of the first winning line so encountered. -/
theorem winner_eq_winnerSpec (env : Connect4) : winner env = winnerSpec env := by
  unfold winner winnerSpec
  rw [rowCheck_eq_spec, colCheck_eq_spec, diagCheck_eq_spec]

end QLearn
